import Mathlib

/-!
Verification of the tezdhar bitboard move-attack oracle.

This file shallowly embeds the bitboard subsystem of the tezdhar chess
engine (src/bitboard.c, src/bitboard.h, src/rook.c, src/bishop.c,
src/queen.c, src/chess.h) into Lean.  C `uint64_t` values are modelled as
`Nat` with explicit reduction modulo `2^64` wherever C arithmetic can
overflow (multiplication, left shifts); bitwise C operators map to the
corresponding `Nat` operations.  The board mapping is the engine's LERF
mapping from `enum square` in chess.h: square index `rank*8 + file`,
a1 = 0, h8 = 63.

Fixed-size C arrays indexed by computed indices are modelled as functions
`Nat → Nat`; array stores become `Function.update`.  Static C arrays are
zero-initialised, so table construction starts from `fun _ => 0`.

The ray-walking `for` loops of rook.c/bishop.c advance one square per
iteration and every walk stays inside an 8×8 board, so each loop runs at
most 7 iterations; the embedding runs each walk with fuel 8, which makes
it compute exactly the value of the unbounded C loop.
-/

namespace Tezdhar

/-- Mask of a 64-bit machine word; C `uint64_t` arithmetic is `Nat`
arithmetic followed by `&&& MASK64` where overflow is possible. -/
def MASK64 : Nat := 2 ^ 64 - 1

/-- Value of `A_FILE` in `enum files` of chess.h (files a..h are 0..7). -/
def A_FILE : Nat := 0

/-- Value of `H_FILE` in `enum files` of chess.h. -/
def H_FILE : Nat := 7

/-- Fuelled scan for the number of trailing zero bits.  A `uint64_t`
has 64 bits, so 64 fuel always suffices; the fuel only makes the
recursion structural. -/
def ctz_loop : Nat → Nat → Nat
  | 0, _ => 0
  | fuel + 1, n => if n % 2 = 1 then 0 else ctz_loop fuel (n / 2) + 1

/-- Number of trailing zero bits of a positive 64-bit number.  This is
the semantics of `__builtin_ctzll`, used by the
`HAVE___BUILTIN_CTZLL` branch of `get_ls1b` in bitboard.c (the C
builtin is undefined at 0; `get_ls1b` guards that case). -/
def ctz (n : Nat) : Nat := ctz_loop 64 n

/-- Fuelled Brian Kernighan loop.  Each iteration clears the least
significant set bit, so on a `uint64_t` the C `while` loop runs at most
64 times and 64 fuel computes its exact value. -/
def count_bits_loop : Nat → Nat → Nat
  | 0, _ => 0
  | fuel + 1, bb => if bb = 0 then 0 else count_bits_loop fuel (bb &&& (bb - 1)) + 1

/-- Embedding of `count_bits` from bitboard.c.  The portable branch is
Brian Kernighan's loop (`brain_kernighan_algo`): repeatedly clear the
least significant set bit with `bb &= bb - 1` and count the iterations;
the `__builtin_popcountll` branch has the same semantics. -/
def count_bits (bb : Nat) : Nat := count_bits_loop 64 bb

/-- Embedding of `get_ls1b` from bitboard.c, `HAVE___BUILTIN_CTZLL`
branch: `bb ? __builtin_ctzll(bb) : 0`.  The `HAVE___BUILTIN_POPCOUNTLL`
and de Bruijn fallback branches have the same 0-based semantics (see the
claim C7 theorem); the engine's own uses of `get_ls1b` (`set_occupancy`,
`print_bitboard`) require exactly this 0-based index semantics. -/
def get_ls1b (bb : Nat) : Nat :=
  if bb = 0 then 0 else ctz bb

/-- Embedding of the `HAVE___BUILTIN_FFSLL` branch of `get_ls1b`:
`__builtin_ffsll(bb)` returns one plus the index of the least
significant set bit, or 0 when `bb = 0` (ISO C `ffsll` semantics).
The `HAVE_FFSLL` branch `ffsll(bb)` is identical. -/
def get_ls1b_ffsll (bb : Nat) : Nat :=
  if bb = 0 then 0 else ctz bb + 1

/-- Embedding of the `HAVE___BUILTIN_POPCOUNTLL` branch of `get_ls1b`:
`bb ? __builtin_popcountll((bb & -bb) - 1) : 0`, with `-bb` the two's
complement negation `2^64 - bb` of a `uint64_t`. -/
def get_ls1b_popcount (bb : Nat) : Nat :=
  if bb = 0 then 0 else count_bits ((bb &&& ((2 ^ 64 - bb) &&& MASK64)) - 1)

/-- The de Bruijn bit-scan index table `index64` from bitboard.c. -/
def index64 : List Nat :=
  [0, 47, 1, 56, 48, 27, 2, 60,
   57, 49, 41, 37, 28, 16, 3, 61,
   54, 58, 35, 52, 50, 42, 21, 44,
   38, 32, 29, 23, 17, 11, 4, 62,
   46, 55, 26, 59, 40, 36, 15, 53,
   34, 51, 20, 43, 31, 22, 10, 45,
   25, 39, 14, 33, 19, 30, 9, 24,
   13, 18, 8, 12, 7, 6, 5, 63]

/-- The de Bruijn constant of `bitScanForward` in bitboard.c. -/
def debruijn64 : Nat := 0x03f79d71b4cb0a89

/-- Embedding of `bitScanForward` from bitboard.c:
`index64[((bb ^ (bb-1)) * debruijn64) >> 58]` with 64-bit overflowing
multiplication (precondition in the source: `bb != 0`). -/
def bitScanForward (bb : Nat) : Nat :=
  index64.getD ((((bb ^^^ (bb - 1)) * debruijn64) &&& MASK64) >>> 58) 0

/-- Embedding of the final fallback branch of `get_ls1b`:
`bb ? bitScanForward(bb) : 0`. -/
def get_ls1b_debruijn (bb : Nat) : Nat :=
  if bb = 0 then 0 else bitScanForward bb

/-- Embedding of `SHIFT_N` from bitboard.h: `(bb) >> 8`. -/
def SHIFT_N (bb : Nat) : Nat := bb >>> 8

/-- Embedding of `SHIFT_S` from bitboard.h: `(bb) << 8` on `uint64_t`. -/
def SHIFT_S (bb : Nat) : Nat := (bb <<< 8) &&& MASK64

/-- Embedding of `SHIFT_W` from bitboard.h: `((bb) & ~A_FILE) >> 1`.
`A_FILE` is the `enum files` constant 0, so `~A_FILE` is the all-ones
word `MASK64 ^^^ 0`. -/
def SHIFT_W (bb : Nat) : Nat := (bb &&& (MASK64 ^^^ A_FILE)) >>> 1

/-- Embedding of `SHIFT_E` from bitboard.h: `((bb) & ~H_FILE) << 1`.
`H_FILE` is the `enum files` constant 7, so `~H_FILE` is the word
`MASK64 ^^^ 7` (all bits except bits 0..2). -/
def SHIFT_E (bb : Nat) : Nat := ((bb &&& (MASK64 ^^^ H_FILE)) <<< 1) &&& MASK64

/-- Embedding of `SHIFT_NE` from bitboard.h: `((bb) & ~H_FILE) >> 7`. -/
def SHIFT_NE (bb : Nat) : Nat := (bb &&& (MASK64 ^^^ H_FILE)) >>> 7

/-- Embedding of `SHIFT_SW` from bitboard.h: `((bb) & ~A_FILE) << 7`. -/
def SHIFT_SW (bb : Nat) : Nat := ((bb &&& (MASK64 ^^^ A_FILE)) <<< 7) &&& MASK64

/-- Embedding of `SHIFT_NW` from bitboard.h: `((bb) & ~A_FILE) >> 9`. -/
def SHIFT_NW (bb : Nat) : Nat := (bb &&& (MASK64 ^^^ A_FILE)) >>> 9

/-- Embedding of `SHIFT_SE` from bitboard.h: `((bb) & ~H_FILE) << 9`. -/
def SHIFT_SE (bb : Nat) : Nat := ((bb &&& (MASK64 ^^^ H_FILE)) <<< 9) &&& MASK64

/-- Embedding of `init_used_attacks` from bitboard.c.  The scratch array
is `uint64_t used_attacks[4096]` and the call is
`memset(used_attacks, 0ULL, 4096)`: the count is 4096 *bytes*, which
zeroes only the first `4096 / sizeof(uint64_t) = 512` entries; entries
512..4095 keep their previous values. -/
def init_used_attacks (used_attacks : Nat → Nat) : Nat → Nat :=
  fun idx => if idx < 512 then 0 else used_attacks idx

/-- Embedding of `magic_hashing` from bitboard.c:
`(key * magic) >> (64 - bits_in_idx)` with 64-bit overflowing
multiplication. -/
def magic_hashing (key magic bits_in_idx : Nat) : Nat :=
  ((key * magic) &&& MASK64) >>> (64 - bits_in_idx)

/-- Embedding of `POP_BIT(bb, sq)` from bitboard.h:
`bb &= ~(1ULL << sq)`; on `uint64_t`, `~(1 << sq)` is
`MASK64 ^^^ (1 <<< sq)`. -/
def popBit (bb sq : Nat) : Nat := bb &&& (MASK64 ^^^ (1 <<< sq))

/-- Loop body of `set_occupancy` from bitboard.c: for
`count = 0 .. bits_in_mask - 1`, pop the least significant set bit `sq`
of the running attack mask and, when bit `count` of `index` is set, set
bit `sq` of the occupancy accumulator. -/
def set_occupancy_loop (index : Nat) : Nat → Nat → Nat → Nat → Nat
  | _count, 0, _attack_mask, occupancy => occupancy
  | count, fuel + 1, attack_mask, occupancy =>
      let sq := get_ls1b attack_mask
      let mask' := popBit attack_mask sq
      let occ' := if index &&& (1 <<< count) ≠ 0
                  then occupancy ||| (1 <<< sq) else occupancy
      set_occupancy_loop index (count + 1) fuel mask' occ'

/-- Embedding of `set_occupancy` from bitboard.c. -/
def set_occupancy (index bits_in_mask attack_mask : Nat) : Nat :=
  set_occupancy_loop index 0 bits_in_mask attack_mask 0

/-- Modelled from the spec: the `SQR(r, f)` macro used throughout
rook.c/bishop.c is not among the files under src/.  Per the chess.h
square mapping (`square = rank*8 + file`, a1 = 0) and the identical
`SET_BIT(*bb, (r*8)+f)` in `update_bitboards`, it is the single-bit
board `1ULL << (r*8 + f)`. -/
def SQR (r f : Int) : Nat := 1 <<< (r * 8 + f).toNat

/-- One ray-walking `for` loop of rook.c/bishop.c: starting at rank `r`
and file `f` and stepping by `(dr, df)` per iteration, while `cond r f`
holds add the square's bit; stop after adding a square occupied in
`blockers`.  The occupancy-mask loops are the `blockers = 0` instances
(they never break early).  `cond` is instantiated with the exact
condition of each source loop. -/
def walk (cond : Int → Int → Bool) (blockers : Nat) (dr df : Int) :
    Int → Int → Nat → Nat
  | _, _, 0 => 0
  | r, f, fuel + 1 =>
      if cond r f then
        let bb := SQR r f
        if blockers &&& bb ≠ 0 then bb
        else bb ||| walk cond blockers dr df (r + dr) (f + df) fuel
      else 0

/-- Embedding of `rook_occu_mask` from rook.c: the four loops bound the
moving coordinate by `RANK_7`/`RANK_2`/`G_FILE`/`B_FILE` (6/1/6/1). -/
def rook_occu_mask (sq : Nat) : Nat :=
  let tr : Int := (sq / 8 : Nat)
  let tf : Int := (sq % 8 : Nat)
  walk (fun r _ => r ≤ 6) 0 1 0 (tr + 1) tf 8 |||
  walk (fun r _ => 1 ≤ r) 0 (-1) 0 (tr - 1) tf 8 |||
  walk (fun _ f => f ≤ 6) 0 0 1 tr (tf + 1) 8 |||
  walk (fun _ f => 1 ≤ f) 0 0 (-1) tr (tf - 1) 8

/-- Embedding of `rook_attacks_on_the_fly` from rook.c: the four loops
bound the moving coordinate by `RANK_8`/`RANK_1`/`H_FILE`/`A_FILE`
(7/0/7/0) and break after adding a blocker square. -/
def rook_attacks_on_the_fly (sq : Nat) (blockers : Nat) : Nat :=
  let tr : Int := (sq / 8 : Nat)
  let tf : Int := (sq % 8 : Nat)
  walk (fun r _ => r ≤ 7) blockers 1 0 (tr + 1) tf 8 |||
  walk (fun r _ => 0 ≤ r) blockers (-1) 0 (tr - 1) tf 8 |||
  walk (fun _ f => f ≤ 7) blockers 0 1 tr (tf + 1) 8 |||
  walk (fun _ f => 0 ≤ f) blockers 0 (-1) tr (tf - 1) 8

/-- Embedding of `bishop_occu_mask` from bishop.c: the four diagonal
loops bound both coordinates by `RANK_7`/`RANK_2` and `G_FILE`/`B_FILE`. -/
def bishop_occu_mask (sq : Nat) : Nat :=
  let tr : Int := (sq / 8 : Nat)
  let tf : Int := (sq % 8 : Nat)
  walk (fun r f => r ≤ 6 && f ≤ 6) 0 1 1 (tr + 1) (tf + 1) 8 |||
  walk (fun r f => r ≤ 6 && 1 ≤ f) 0 1 (-1) (tr + 1) (tf - 1) 8 |||
  walk (fun r f => 1 ≤ r && f ≤ 6) 0 (-1) 1 (tr - 1) (tf + 1) 8 |||
  walk (fun r f => 1 ≤ r && 1 ≤ f) 0 (-1) (-1) (tr - 1) (tf - 1) 8

/-- Embedding of `bishop_attacks_on_the_fly` from bishop.c: the four
diagonal loops bound both coordinates by `RANK_8`/`RANK_1` and
`H_FILE`/`A_FILE` and break after adding a blocker square. -/
def bishop_attacks_on_the_fly (sq : Nat) (blockers : Nat) : Nat :=
  let tr : Int := (sq / 8 : Nat)
  let tf : Int := (sq % 8 : Nat)
  walk (fun r f => r ≤ 7 && f ≤ 7) blockers 1 1 (tr + 1) (tf + 1) 8 |||
  walk (fun r f => r ≤ 7 && 0 ≤ f) blockers 1 (-1) (tr + 1) (tf - 1) 8 |||
  walk (fun r f => 0 ≤ r && f ≤ 7) blockers (-1) 1 (tr - 1) (tf + 1) 8 |||
  walk (fun r f => 0 ≤ r && 0 ≤ f) blockers (-1) (-1) (tr - 1) (tf - 1) 8

/-- The two slider piece kinds handled by the magic machinery: the
`BISHOP` and `ROOK` cases of `enum chessmen` switched on by
`init_occupancy_indicies` in bitboard.c (all other pieces make it
return failure). -/
inductive Slider where
  | bishop
  | rook
deriving DecidableEq

/-- The per-slider relevant-occupancy mask (field `mask` of the
`R_lut`/`B_lut` entries, as set by `init_rook_magic` /
`init_bishop_magic`). -/
def slider_occu_mask : Slider → Nat → Nat
  | .bishop => bishop_occu_mask
  | .rook => rook_occu_mask

/-- The per-slider reference generator, as dispatched by the
`piece == BISHOP` / `piece == ROOK` switch of
`init_occupancy_indicies`. -/
def slider_attacks_on_the_fly : Slider → Nat → Nat → Nat
  | .bishop => bishop_attacks_on_the_fly
  | .rook => rook_attacks_on_the_fly

/-- The occupancies array filled by `init_occupancy_indicies` in
bitboard.c: `occupancies[idx] = set_occupancy(idx, relv_bits,
attack_mask)`. -/
def occupancy_at (attack_mask relv_bits idx : Nat) : Nat :=
  set_occupancy idx relv_bits attack_mask

/-- The attacks array filled by `init_occupancy_indicies` in
bitboard.c: `attacks[idx]` is the on-the-fly attack set for
`occupancies[idx]`. -/
def attack_at (p : Slider) (sq attack_mask relv_bits idx : Nat) : Nat :=
  slider_attacks_on_the_fly p sq (occupancy_at attack_mask relv_bits idx)

/-- Loop of `test_magic` from bitboard.c over
`idx = 0 .. (1 << relv_bits) - 1`: hash `occupancies[idx]`, write
`attacks[idx]` into an empty (`== 0`) slot of `used_attacks`, accept an
equal value already present, and fail on a differing value. -/
def test_magic_loop (relv_bits magic : Nat) (occupancies attacks : Nat → Nat) :
    Nat → Nat → (Nat → Nat) → Bool
  | _idx, 0, _used => true
  | idx, fuel + 1, used_attacks =>
      let magic_idx := magic_hashing (occupancies idx) magic relv_bits
      if used_attacks magic_idx = 0 then
        test_magic_loop relv_bits magic occupancies attacks (idx + 1) fuel
          (Function.update used_attacks magic_idx (attacks idx))
      else if used_attacks magic_idx = attacks idx then
        test_magic_loop relv_bits magic occupancies attacks (idx + 1) fuel
          used_attacks
      else false

/-- Embedding of `test_magic` from bitboard.c, parameterised by the
incoming contents of the `used_attacks` scratch array. -/
def test_magic (relv_bits magic : Nat) (occupancies attacks : Nat → Nat)
    (used_attacks : Nat → Nat) : Bool :=
  test_magic_loop relv_bits magic occupancies attacks 0 (1 <<< relv_bits)
    used_attacks

/-- Embedding of `skip_magic` from bitboard.c:
`count_bits((attack_mask * magic) & BB_RANK_8) < 6` rejects the
candidate (`BB_RANK_8 = 0xff << 56`). -/
def skip_magic (attack_mask magic : Nat) : Bool :=
  count_bits (((attack_mask * magic) &&& MASK64) &&& (0xff <<< 56)) < 6

/-- Success criterion of `find_magic_number` in bitboard.c for a
candidate `magic` of piece `p` on square `sq`: `test_magic` over the
occupancy/attack arrays built by `init_occupancy_indicies` accepts the
candidate.  Inside `find_magic_number` the scratch comes from
`init_used_attacks`; a zeroed scratch is the canonical (bug-free) state,
and the claim C2 theorem shows acceptance from any scratch state yields
the same collision guarantee. -/
def magic_works (p : Slider) (sq magic : Nat) : Bool :=
  let attack_mask := slider_occu_mask p sq
  let relv_bits := count_bits attack_mask
  test_magic relv_bits magic (occupancy_at attack_mask relv_bits)
    (attack_at p sq attack_mask relv_bits) (fun _ => 0)

/-- Table-filling loop shared by `init_bishop_attacks` (bishop.c) and
`init_rook_attacks` (rook.c) for one square: for
`i = 0 .. (1 << obits) - 1`, store the on-the-fly attack set of the
`i`-th occupancy variation at its magic index. -/
def attack_table_loop (attack_mask obits magic : Nat) (fly : Nat → Nat) :
    Nat → Nat → (Nat → Nat) → (Nat → Nat)
  | _i, 0, tbl => tbl
  | i, fuel + 1, tbl =>
      let occu := set_occupancy i obits attack_mask
      let magic_idx := magic_hashing occu magic obits
      attack_table_loop attack_mask obits magic fly (i + 1) fuel
        (Function.update tbl magic_idx (fly occu))

/-- Row `Battacks[sq]` after `init_bishop_attacks` (bishop.c) has run
with magic number `magic` for square `sq`.  The static array starts
zeroed. -/
def init_bishop_attacks (magic sq : Nat) : Nat → Nat :=
  let mask := bishop_occu_mask sq
  let obits := count_bits mask
  attack_table_loop mask obits magic (bishop_attacks_on_the_fly sq) 0
    (1 <<< obits) (fun _ => 0)

/-- Row `Rattacks[sq]` after `init_rook_attacks` (rook.c) has run with
magic number `magic` for square `sq`.  The static array starts zeroed. -/
def init_rook_attacks (magic sq : Nat) : Nat → Nat :=
  let mask := rook_occu_mask sq
  let obits := count_bits mask
  attack_table_loop mask obits magic (rook_attacks_on_the_fly sq) 0
    (1 <<< obits) (fun _ => 0)

/-- Embedding of `get_bishop_attacks` from bishop.c: mask the occupancy
with `B_lut[sq].mask`, multiply by `B_lut[sq].magic`, shift right by
`64 - B_lut[sq].obits` and read `Battacks[sq]`, in the post-init state
where magic number `magic` was used for square `sq`. -/
def get_bishop_attacks (magic sq occu : Nat) : Nat :=
  let mask := bishop_occu_mask sq
  let obits := count_bits mask
  init_bishop_attacks magic sq (magic_hashing (occu &&& mask) magic obits)

/-- Modelled from the spec: rook.c populates `Rattacks` but defines no
query function, and `get_rook_attacks`, called by queen.c, is not among
the files under src/.  Per spec §4.8 ("mask the blockers, multiply by
the magic, right-shift, indexed load") it is the rook analogue of
`get_bishop_attacks`. -/
def get_rook_attacks (magic sq occu : Nat) : Nat :=
  let mask := rook_occu_mask sq
  let obits := count_bits mask
  init_rook_attacks magic sq (magic_hashing (occu &&& mask) magic obits)

/-- Embedding of `get_queen_attacks` from queen.c:
`get_bishop_attacks(sq, occu) | get_rook_attacks(sq, occu)`, in the
post-init state with bishop magic `magicB` and rook magic `magicR` for
square `sq`. -/
def get_queen_attacks (magicB magicR sq occu : Nat) : Nat :=
  get_bishop_attacks magicB sq occu ||| get_rook_attacks magicR sq occu

/-- The claim C1 lookup under test, per piece: for the bishop the query
function `get_bishop_attacks`; for the rook the table read
`Rattacks[sq][(occu * magic) >> (64 - obits)]` stated by the claim. -/
def magic_attacks (p : Slider) (magic sq occu : Nat) : Nat :=
  match p with
  | .bishop => get_bishop_attacks magic sq occu
  | .rook =>
      init_rook_attacks magic sq
        (magic_hashing occu magic (count_bits (rook_occu_mask sq)))

/-- Embedding of `init_bishop_magic` from bishop.c, abstracted over the
compiled-in `bishop_magic_numbers` table (not under src/) and over the
values returned by `find_magic_number` (randomised): for each square the
chosen magic must be nonzero, else the function returns false. -/
def init_bishop_magic (use_pre_calc_magic : Bool)
    (bishop_magic_numbers find_magic : Nat → Nat) : Bool :=
  (List.range 64).all fun sq =>
    (if use_pre_calc_magic then bishop_magic_numbers sq else find_magic sq) ≠ 0

/-- Embedding of `init_rook_magic` from rook.c (the runtime-flag branch,
without `USE_PRE_CALCULATED_MAGIC`), abstracted like
`init_bishop_magic`. -/
def init_rook_magic (use_pre_calc_magic : Bool)
    (rook_magic_numbers find_magic : Nat → Nat) : Bool :=
  (List.range 64).all fun sq =>
    (if use_pre_calc_magic then rook_magic_numbers sq else find_magic sq) ≠ 0

/-- Modelled from the spec: the loader `init_magic_numbers` called from
main() in chess.c is not among the files under src/.  Per spec §4.9 and
§7 and the comment above `init_rook_magic` ("Runtime flag is set when
find_magic_number() function fails even after max retries"), it first
tries the randomized search path and, if that reports failure, retries
with the compiled-in precomputed magics. -/
def init_magic_numbers (bishop_magic_numbers rook_magic_numbers
    find_magicB find_magicR : Nat → Nat) : Bool :=
  (if init_bishop_magic false bishop_magic_numbers find_magicB then true
   else init_bishop_magic true bishop_magic_numbers find_magicB) &&
  (if init_rook_magic false rook_magic_numbers find_magicR then true
   else init_rook_magic true rook_magic_numbers find_magicR)

end Tezdhar

namespace Tezdhar

/-! ### Generic bit-level lemmas -/

theorem ne_zero_of_testBit {n j : Nat} (h : n.testBit j = true) : n ≠ 0 := by
  intro h0
  rw [h0, Nat.zero_testBit] at h
  exact Bool.false_ne_true h

theorem lt_two_pow_of_high_bits_false {m n : Nat}
    (h : ∀ j, n ≤ j → m.testBit j = false) : m < 2 ^ n := by
  have hm : m = m % 2 ^ n := by
    refine Nat.eq_of_testBit_eq fun j => ?_
    rw [Nat.testBit_mod_two_pow]
    by_cases hj : j < n
    · simp [hj]
    · simp [hj, h j (Nat.le_of_not_lt hj)]
  rw [hm]
  exact Nat.mod_lt _ (Nat.two_pow_pos n)

theorem testBit_false_of_lt_two_pow {m n j : Nat} (hm : m < 2 ^ n)
    (hj : n ≤ j) : m.testBit j = false :=
  Nat.testBit_lt_two_pow
    (Nat.lt_of_lt_of_le hm (Nat.pow_le_pow_right (by omega) hj))

theorem land_land_self (a m : Nat) : (a &&& m) &&& m = a &&& m :=
  Nat.eq_of_testBit_eq fun j => by
    simp [Nat.testBit_land, Bool.and_assoc]

theorem testBit_of_land_self {o m : Nat} (h : o &&& m = o) {j : Nat}
    (hj : o.testBit j = true) : m.testBit j = true := by
  have := congrArg (fun x => x.testBit j) h
  simp only [Nat.testBit_land] at this
  rw [hj] at this
  simpa using this.symm

theorem land_two_pow_ne_zero_iff (i c : Nat) :
    (i &&& (1 <<< c) ≠ 0) ↔ i.testBit c = true := by
  rw [Nat.one_shiftLeft]
  constructor
  · intro h
    by_contra hb
    refine h (Nat.eq_of_testBit_eq fun j => ?_)
    rw [Nat.testBit_land, Nat.zero_testBit, Nat.testBit_two_pow]
    by_cases hj : c = j
    · subst hj
      simp [Bool.eq_false_iff.mpr hb]
    · simp [hj]
  · intro h
    refine ne_zero_of_testBit (j := c) ?_
    rw [Nat.testBit_land, Nat.testBit_two_pow]
    simp [h]

/-! ### Trailing-zero count -/

theorem ctz_loop_high : ∀ k f n, n ≠ 0 → n < 2 ^ k → k ≤ f →
    ctz_loop f n = ctz_loop k n := by
  intro k
  induction k with
  | zero =>
      intro f n hn hlt _
      simp only [pow_zero, Nat.lt_one_iff] at hlt
      omega
  | succ k ih =>
      intro f n hn hlt hkf
      obtain ⟨g, rfl⟩ : ∃ g, f = g + 1 := ⟨f - 1, by omega⟩
      by_cases hodd : n % 2 = 1
      · simp [ctz_loop, hodd]
      · have hn2 : n / 2 ≠ 0 := by omega
        have hlt2 : n / 2 < 2 ^ k := by
          have h2 : n < 2 ^ k * 2 := by
            rw [← pow_succ]
            exact hlt
          omega
        simp only [ctz_loop, hodd, if_false]
        rw [ih g (n / 2) hn2 hlt2 (by omega)]

theorem ctz_of_odd {n : Nat} (h : n % 2 = 1) : ctz n = 0 := by
  simp [ctz, ctz_loop, h]

theorem ctz_of_even {n : Nat} (hn : n ≠ 0) (h64 : n < 2 ^ 64)
    (h : n % 2 = 0) : ctz n = ctz (n / 2) + 1 := by
  have hn2 : n / 2 ≠ 0 := by omega
  have hsmall : n / 2 < 2 ^ 63 := by
    have h2 : (2 : Nat) ^ 64 = 2 ^ 63 * 2 := by norm_num
    omega
  show ctz_loop 64 n = ctz_loop 64 (n / 2) + 1
  have e1 : ctz_loop 64 n = ctz_loop 63 (n / 2) + 1 := by
    show ctz_loop (63 + 1) n = _
    simp [ctz_loop, h]
  rw [e1, ← ctz_loop_high 63 64 (n / 2) hn2 hsmall (by omega)]

theorem testBit_ctz_self : ∀ n, n ≠ 0 → n < 2 ^ 64 → n.testBit (ctz n) = true := by
  intro n
  induction n using Nat.strong_induction_on with
  | _ n ih =>
      intro hn h64
      by_cases hodd : n % 2 = 1
      · rw [ctz_of_odd hodd, Nat.testBit_zero]
        simp [hodd]
      · have he : n % 2 = 0 := by omega
        rw [ctz_of_even hn h64 he, Nat.testBit_add_one]
        exact ih (n / 2) (by omega) (by omega) (by omega)

theorem testBit_lt_ctz : ∀ n, n ≠ 0 → n < 2 ^ 64 →
    ∀ j, j < ctz n → n.testBit j = false := by
  intro n
  induction n using Nat.strong_induction_on with
  | _ n ih =>
      intro hn h64 j hj
      by_cases hodd : n % 2 = 1
      · rw [ctz_of_odd hodd] at hj
        omega
      · have he : n % 2 = 0 := by omega
        rw [ctz_of_even hn h64 he] at hj
        match j with
        | 0 =>
            rw [Nat.testBit_zero]
            simp [he]
        | j + 1 =>
            rw [Nat.testBit_add_one]
            exact ih (n / 2) (by omega) (by omega) (by omega) j (by omega)

theorem ctz_lt_64 {n : Nat} (hn : n ≠ 0) (h64 : n < 2 ^ 64) : ctz n < 64 := by
  by_contra hge
  have hb := testBit_ctz_self n hn h64
  rw [testBit_false_of_lt_two_pow h64 (by omega)] at hb
  exact Bool.false_ne_true hb

theorem testBit_pred : ∀ n, n ≠ 0 → n < 2 ^ 64 → ∀ j,
    (n - 1).testBit j =
      (if j < ctz n then true else if j = ctz n then false else n.testBit j) := by
  intro n
  induction n using Nat.strong_induction_on with
  | _ n ih =>
      intro hn h64 j
      by_cases hodd : n % 2 = 1
      · rw [ctz_of_odd hodd]
        match j with
        | 0 =>
            rw [Nat.testBit_zero]
            split_ifs <;> simp <;> omega
        | j + 1 =>
            rw [Nat.testBit_add_one, (by omega : (n - 1) / 2 = n / 2)]
            split_ifs <;> first | rw [Nat.testBit_add_one] | omega | contradiction
      · have he : n % 2 = 0 := by omega
        rw [ctz_of_even hn h64 he]
        match j with
        | 0 =>
            rw [Nat.testBit_zero]
            split_ifs <;> simp <;> omega
        | j + 1 =>
            rw [Nat.testBit_add_one, (by omega : (n - 1) / 2 = n / 2 - 1),
              ih (n / 2) (by omega) (by omega) (by omega) j,
              Nat.testBit_add_one]
            split_ifs <;> first | rfl | omega

theorem testBit_land_pred {n : Nat} (hn : n ≠ 0) (h64 : n < 2 ^ 64) (j : Nat) :
    (n &&& (n - 1)).testBit j = (n.testBit j && decide (j ≠ ctz n)) := by
  rw [Nat.testBit_land, testBit_pred n hn h64 j]
  by_cases h1 : j < ctz n
  · rw [testBit_lt_ctz n hn h64 j h1]
    simp [h1]
  · by_cases h2 : j = ctz n
    · simp [h2]
    · simp [h1, h2]

theorem testBit_popBit {m s : Nat} (hm : m < 2 ^ 64) (j : Nat) :
    (popBit m s).testBit j = (m.testBit j && decide (j ≠ s)) := by
  rw [popBit, Nat.testBit_land, Nat.testBit_xor, Nat.one_shiftLeft,
    Nat.testBit_two_pow]
  have hM : MASK64 = 2 ^ 64 - 1 := rfl
  rw [hM, Nat.testBit_two_pow_sub_one]
  by_cases hj : j < 64
  · have h1 : decide (j < 64) = true := by simp [hj]
    rw [h1]
    by_cases hjs : s = j
    · subst hjs
      simp
    · simp [hjs, Ne.symm hjs]
  · rw [testBit_false_of_lt_two_pow hm (by omega)]
    simp

theorem popBit_ls1b {m : Nat} (hm : m < 2 ^ 64) (h : m ≠ 0) :
    popBit m (get_ls1b m) = m &&& (m - 1) := by
  rw [get_ls1b, if_neg h]
  refine Nat.eq_of_testBit_eq fun j => ?_
  rw [testBit_popBit hm, testBit_land_pred h hm]

theorem popBit_le (m s : Nat) : popBit m s ≤ m := Nat.and_le_left

theorem count_bits_loop_zero : ∀ f, count_bits_loop f 0 = 0 := by
  intro f
  cases f <;> simp [count_bits_loop]

theorem count_bits_loop_high : ∀ k f bb, bb < 2 ^ 64 →
    (∀ j, j < 64 - k → bb.testBit j = false) → k ≤ f →
    count_bits_loop f bb = count_bits_loop k bb := by
  intro k
  induction k with
  | zero =>
      intro f bb h64 hlow _
      have hz : bb = 0 := by
        refine Nat.eq_of_testBit_eq fun j => ?_
        rw [Nat.zero_testBit]
        by_cases hj : j < 64
        · exact hlow j (by omega)
        · exact testBit_false_of_lt_two_pow h64 (by omega)
      rw [hz, count_bits_loop_zero, count_bits_loop_zero]
  | succ k ih =>
      intro f bb h64 hlow hkf
      obtain ⟨g, rfl⟩ : ∃ g, f = g + 1 := ⟨f - 1, by omega⟩
      by_cases hz : bb = 0
      · rw [hz, count_bits_loop_zero, count_bits_loop_zero]
      · have hc : ctz bb ≥ 64 - (k + 1) := by
          by_contra hlt
          have hb := testBit_ctz_self bb hz h64
          rw [hlow (ctz bb) (by omega)] at hb
          exact Bool.false_ne_true hb
        have hlow' : ∀ j, j < 64 - k → (bb &&& (bb - 1)).testBit j = false := by
          intro j hj
          rw [testBit_land_pred hz h64 j]
          by_cases hje : j = ctz bb
          · simp [hje]
          · by_cases hjb : j < 64 - (k + 1)
            · rw [hlow j hjb]
              rfl
            · rw [testBit_lt_ctz bb hz h64 j (by omega)]
              rfl
        have h64' : bb &&& (bb - 1) < 2 ^ 64 :=
          Nat.lt_of_le_of_lt Nat.and_le_left h64
        simp only [count_bits_loop, hz, if_false]
        rw [ih g (bb &&& (bb - 1)) h64' hlow' (by omega)]

theorem count_bits_step {bb : Nat} (hz : bb ≠ 0) (h64 : bb < 2 ^ 64) :
    count_bits bb = count_bits (bb &&& (bb - 1)) + 1 := by
  have e1 : count_bits bb = count_bits_loop 63 (bb &&& (bb - 1)) + 1 := by
    show count_bits_loop (63 + 1) bb = _
    simp [count_bits_loop, hz]
  have hlow : ∀ j, j < 64 - 63 → (bb &&& (bb - 1)).testBit j = false := by
    intro j hj
    have hj0 : j = 0 := by omega
    subst hj0
    rw [testBit_land_pred hz h64 0]
    by_cases hje : (0 : Nat) = ctz bb
    · simp [hje]
    · rw [testBit_lt_ctz bb hz h64 0 (by omega)]
      rfl
  have h64' : bb &&& (bb - 1) < 2 ^ 64 := Nat.lt_of_le_of_lt Nat.and_le_left h64
  rw [e1, ← count_bits_loop_high 63 64 (bb &&& (bb - 1)) h64' hlow (by omega)]
  rfl

theorem count_bits_eq_zero {bb : Nat} (h : count_bits bb = 0) : bb = 0 := by
  by_contra hz
  rw [show count_bits bb = count_bits_loop (63 + 1) bb from rfl] at h
  simp [count_bits_loop, hz] at h

theorem count_bits_popBit_ls1b {m : Nat} (hm : m < 2 ^ 64) (hz : m ≠ 0) :
    count_bits (popBit m (get_ls1b m)) = count_bits m - 1 := by
  rw [popBit_ls1b hm hz, count_bits_step hz hm]
  omega

/-! ### Occupancy enumeration -/

theorem set_occupancy_loop_subset :
    ∀ fuel count index mask occ, mask < 2 ^ 64 → fuel ≤ count_bits mask →
      ∀ j, (set_occupancy_loop index count fuel mask occ).testBit j = true →
        occ.testBit j = true ∨ mask.testBit j = true := by
  intro fuel
  induction fuel with
  | zero => intro count index mask occ _ _ j h; exact Or.inl h
  | succ fuel ih =>
      intro count index mask occ hm hf j h
      have hz : mask ≠ 0 := by
        intro h0
        rw [h0] at hf
        rw [show count_bits 0 = 0 from rfl] at hf
        omega
      have hls : get_ls1b mask = ctz mask := by rw [get_ls1b, if_neg hz]
      have hbit : mask.testBit (ctz mask) = true := testBit_ctz_self mask hz hm
      have hm' : popBit mask (get_ls1b mask) < 2 ^ 64 :=
        Nat.lt_of_le_of_lt (popBit_le _ _) hm
      have hf' : fuel ≤ count_bits (popBit mask (get_ls1b mask)) := by
        rw [count_bits_popBit_ls1b hm hz]
        omega
      simp only [set_occupancy_loop] at h
      have hrec := ih (count + 1) index (popBit mask (get_ls1b mask))
        (if index &&& (1 <<< count) ≠ 0 then occ ||| (1 <<< get_ls1b mask) else occ)
        hm' hf' j h
      rcases hrec with hocc | hmask
      · by_cases hc : index &&& (1 <<< count) ≠ 0
        · rw [if_pos hc, Nat.testBit_lor] at hocc
          rw [Bool.or_eq_true] at hocc
          rcases hocc with h1 | h2
          · exact Or.inl h1
          · right
            rw [Nat.one_shiftLeft, Nat.testBit_two_pow] at h2
            have hj : get_ls1b mask = j := by simpa using h2
            rw [← hj, hls]
            exact hbit
        · rw [if_neg hc] at hocc
          exact Or.inl hocc
      · right
        rw [testBit_popBit hm] at hmask
        rw [Bool.and_eq_true] at hmask
        exact hmask.1

theorem set_occupancy_loop_congr :
    ∀ fuel count i1 i2 mask occ,
      (∀ j, count ≤ j → j < count + fuel → i1.testBit j = i2.testBit j) →
      set_occupancy_loop i1 count fuel mask occ =
        set_occupancy_loop i2 count fuel mask occ := by
  intro fuel
  induction fuel with
  | zero => intro count i1 i2 mask occ _; rfl
  | succ fuel ih =>
      intro count i1 i2 mask occ h
      simp only [set_occupancy_loop]
      have hcond : (i1 &&& (1 <<< count) ≠ 0) ↔ (i2 &&& (1 <<< count) ≠ 0) := by
        rw [land_two_pow_ne_zero_iff, land_two_pow_ne_zero_iff,
          h count (Nat.le_refl _) (by omega)]
      rw [if_congr hcond rfl rfl]
      exact ih (count + 1) i1 i2 _ _ (fun j hj1 hj2 => h j (by omega) (by omega))

theorem set_occupancy_loop_surj :
    ∀ k count mask occ o, mask < 2 ^ 64 → count_bits mask = k → o &&& mask = o →
      ∃ index, (∀ j, index.testBit j = true → count ≤ j ∧ j < count + k) ∧
        set_occupancy_loop index count k mask occ = occ ||| o := by
  intro k
  induction k with
  | zero =>
      intro count mask occ o _ hk ho
      have hmz : mask = 0 := count_bits_eq_zero hk
      subst hmz
      have hoz : o = 0 := by rw [← ho, Nat.and_zero]
      subst hoz
      refine ⟨0, fun j hj => ?_, ?_⟩
      · rw [Nat.zero_testBit] at hj
        exact absurd hj Bool.false_ne_true
      · rw [Nat.or_zero]
        rfl
  | succ k ih =>
      intro count mask occ o hm hk ho
      have hz : mask ≠ 0 := by
        intro h0
        rw [h0, show count_bits 0 = 0 from rfl] at hk
        omega
      have hls : get_ls1b mask = ctz mask := by rw [get_ls1b, if_neg hz]
      have hsbit : mask.testBit (get_ls1b mask) = true := by
        rw [hls]
        exact testBit_ctz_self mask hz hm
      have ho64 : o < 2 ^ 64 := by
        have hle : o ≤ mask := by
          conv_lhs => rw [← ho]
          exact Nat.and_le_right
        omega
      have hm' : popBit mask (get_ls1b mask) < 2 ^ 64 :=
        Nat.lt_of_le_of_lt (popBit_le _ _) hm
      have hk' : count_bits (popBit mask (get_ls1b mask)) = k := by
        rw [count_bits_popBit_ls1b hm hz, hk]
        omega
      have hom : ∀ j, (o.testBit j && mask.testBit j) = o.testBit j := by
        intro j
        have hc := congrArg (fun x => x.testBit j) ho
        simp only [Nat.testBit_land] at hc
        exact hc
      have ho' : popBit o (get_ls1b mask) &&& popBit mask (get_ls1b mask) =
          popBit o (get_ls1b mask) := by
        refine Nat.eq_of_testBit_eq fun j => ?_
        rw [Nat.testBit_land, testBit_popBit ho64, testBit_popBit hm]
        have hj := hom j
        cases hoj : o.testBit j <;> cases hmj : mask.testBit j <;>
          cases hd : decide (j ≠ get_ls1b mask) <;> simp_all
      obtain ⟨idx', hbits', hloop'⟩ := ih (count + 1) (popBit mask (get_ls1b mask))
        (if o.testBit (get_ls1b mask) then occ ||| (1 <<< get_ls1b mask) else occ)
        (popBit o (get_ls1b mask)) hm' hk' ho'
      have hidxbit : idx'.testBit count = false := by
        by_contra hc
        have hbt : idx'.testBit count = true := by
          revert hc
          cases idx'.testBit count <;> simp
        have := hbits' count hbt
        omega
      refine ⟨idx' ||| (if o.testBit (get_ls1b mask) then (1 <<< count) else 0),
        ?_, ?_⟩
      · intro j hj
        rw [Nat.testBit_lor, Bool.or_eq_true] at hj
        rcases hj with hj | hj
        · have := hbits' j hj
          omega
        · by_cases hob : o.testBit (get_ls1b mask) = true
          · rw [if_pos hob, Nat.one_shiftLeft, Nat.testBit_two_pow] at hj
            have hcj : count = j := by simpa using hj
            omega
          · rw [if_neg hob, Nat.zero_testBit] at hj
            exact absurd hj Bool.false_ne_true
      · simp only [set_occupancy_loop]
        have hcnt : (idx' ||| (if o.testBit (get_ls1b mask) then (1 <<< count)
            else 0)).testBit count = o.testBit (get_ls1b mask) := by
          rw [Nat.testBit_lor, hidxbit]
          by_cases hob : o.testBit (get_ls1b mask) = true
          · rw [if_pos hob, Nat.one_shiftLeft, Nat.testBit_two_pow, hob]
            simp
          · have hobf : o.testBit (get_ls1b mask) = false := by
              revert hob
              cases o.testBit (get_ls1b mask) <;> simp
            rw [if_neg hob, hobf, Nat.zero_testBit]
            simp
        have hcond : ((idx' ||| (if o.testBit (get_ls1b mask) then (1 <<< count)
            else 0)) &&& (1 <<< count) ≠ 0) ↔
            (o.testBit (get_ls1b mask) = true) := by
          rw [land_two_pow_ne_zero_iff, hcnt]
        rw [if_congr hcond rfl rfl]
        rw [set_occupancy_loop_congr k (count + 1) _ idx' _ _ ?hcong]
        case hcong =>
          intro j hj1 hj2
          rw [Nat.testBit_lor]
          by_cases hob : o.testBit (get_ls1b mask) = true
          · rw [if_pos hob, Nat.one_shiftLeft, Nat.testBit_two_pow]
            have hne : ¬ (count = j) := by omega
            simp [hne]
          · rw [if_neg hob, Nat.zero_testBit]
            simp
        rw [hloop']
        by_cases hob : o.testBit (get_ls1b mask) = true
        · rw [if_pos hob]
          refine Nat.eq_of_testBit_eq fun j => ?_
          rw [Nat.testBit_lor, Nat.testBit_lor, Nat.testBit_lor,
            testBit_popBit ho64, Nat.one_shiftLeft, Nat.testBit_two_pow]
          by_cases hj : j = get_ls1b mask
          · subst hj
            simp [hob]
          · simp [hj, Ne.symm hj]
        · have hobf : o.testBit (get_ls1b mask) = false := by
            revert hob
            cases o.testBit (get_ls1b mask) <;> simp
          have hoeq : popBit o (get_ls1b mask) = o := by
            refine Nat.eq_of_testBit_eq fun j => ?_
            rw [testBit_popBit ho64]
            by_cases hj : j = get_ls1b mask
            · subst hj
              simp [hobf]
            · simp [hj]
          rw [if_neg hob, hoeq]

theorem set_occupancy_surj {mask k o : Nat} (hm : mask < 2 ^ 64)
    (hk : count_bits mask = k) (ho : o &&& mask = o) :
    ∃ index, index < 2 ^ k ∧ set_occupancy index k mask = o := by
  obtain ⟨index, hbits, hloop⟩ := set_occupancy_loop_surj k 0 mask 0 o hm hk ho
  refine ⟨index, ?_, ?_⟩
  · refine lt_two_pow_of_high_bits_false fun j hj => ?_
    by_contra hc
    have hbt : index.testBit j = true := by
      revert hc
      cases index.testBit j <;> simp
    have := hbits j hbt
    omega
  · rw [set_occupancy, hloop, Nat.zero_or]

/-! ### Ray walks -/

theorem testBit_walk {cond : Int → Int → Bool} {blockers : Nat} {dr df : Int} :
    ∀ fuel (r f : Int) (j : Nat),
      (walk cond blockers dr df r f fuel).testBit j = true →
      ∃ t : Nat, t < fuel ∧ cond (r + t * dr) (f + t * df) = true ∧
        j = ((r + t * dr) * 8 + (f + t * df)).toNat := by
  intro fuel
  induction fuel with
  | zero =>
      intro r f j h
      rw [show walk cond blockers dr df r f 0 = 0 from rfl, Nat.zero_testBit] at h
      exact absurd h Bool.false_ne_true
  | succ fuel ih =>
      intro r f j h
      simp only [walk] at h
      by_cases hc : cond r f = true
      · rw [if_pos hc] at h
        by_cases hb : blockers &&& SQR r f ≠ 0
        · rw [if_pos hb] at h
          rw [SQR, Nat.one_shiftLeft, Nat.testBit_two_pow] at h
          refine ⟨0, by omega, ?_, ?_⟩
          · simpa using hc
          · have hj : (r * 8 + f).toNat = j := by simpa using h
            rw [← hj]
            norm_num
        · rw [if_neg hb, Nat.testBit_lor, Bool.or_eq_true] at h
          rcases h with h | h
          · rw [SQR, Nat.one_shiftLeft, Nat.testBit_two_pow] at h
            refine ⟨0, by omega, ?_, ?_⟩
            · simpa using hc
            · have hj : (r * 8 + f).toNat = j := by simpa using h
              rw [← hj]
              norm_num
          · obtain ⟨t, ht, htc, htj⟩ := ih (r + dr) (f + df) j h
            refine ⟨t + 1, by omega, ?_, ?_⟩
            · have e1 : r + dr + t * dr = r + (t + 1 : Nat) * dr := by
                push_cast
                ring
              have e2 : f + df + t * df = f + (t + 1 : Nat) * df := by
                push_cast
                ring
              rw [← e1, ← e2]
              exact htc
            · have e1 : r + dr + t * dr = r + (t + 1 : Nat) * dr := by
                push_cast
                ring
              have e2 : f + df + t * df = f + (t + 1 : Nat) * df := by
                push_cast
                ring
              rw [← e1, ← e2]
              exact htj
      · rw [if_neg hc, Nat.zero_testBit] at h
        exact absurd h Bool.false_ne_true

theorem walk_testBit_start {cond : Int → Int → Bool} {blockers : Nat}
    {dr df : Int} {r f : Int} (fuel : Nat) (h : cond r f = true) :
    (walk cond blockers dr df r f (fuel + 1)).testBit ((r * 8 + f).toNat) =
      true := by
  simp only [walk, if_pos h]
  by_cases hb : blockers &&& SQR r f ≠ 0
  · rw [if_pos hb, SQR, Nat.one_shiftLeft, Nat.testBit_two_pow]
    simp
  · rw [if_neg hb, Nat.testBit_lor, SQR, Nat.one_shiftLeft,
      Nat.testBit_two_pow]
    simp

theorem testBit_lor_left {a b : Nat} {j : Nat} (h : a.testBit j = true) :
    (a ||| b).testBit j = true := by
  rw [Nat.testBit_lor, h]
  rfl

theorem testBit_lor_right {a b : Nat} {j : Nat} (h : b.testBit j = true) :
    (a ||| b).testBit j = true := by
  rw [Nat.testBit_lor, h]
  simp

theorem rook_attacks_on_the_fly_ne_zero (sq b : Nat) (h : sq < 64) :
    rook_attacks_on_the_fly sq b ≠ 0 := by
  simp only [rook_attacks_on_the_fly]
  by_cases h6 : sq / 8 ≤ 6
  · refine ne_zero_of_testBit
      (j := ((((sq / 8 : Nat) : Int) + 1) * 8 + ((sq % 8 : Nat) : Int)).toNat) ?_
    refine testBit_lor_left (testBit_lor_left (testBit_lor_left ?_))
    refine walk_testBit_start 7 ?_
    simp only [decide_eq_true_eq]
    omega
  · refine ne_zero_of_testBit
      (j := ((((sq / 8 : Nat) : Int) - 1) * 8 + ((sq % 8 : Nat) : Int)).toNat) ?_
    refine testBit_lor_left (testBit_lor_left (testBit_lor_right ?_))
    refine walk_testBit_start 7 ?_
    simp only [decide_eq_true_eq]
    omega

theorem bishop_attacks_on_the_fly_ne_zero (sq b : Nat) (h : sq < 64) :
    bishop_attacks_on_the_fly sq b ≠ 0 := by
  simp only [bishop_attacks_on_the_fly]
  by_cases hr : sq / 8 ≤ 6 <;> by_cases hf : sq % 8 ≤ 6
  · refine ne_zero_of_testBit
      (j := ((((sq / 8 : Nat) : Int) + 1) * 8 + (((sq % 8 : Nat) : Int) + 1)).toNat) ?_
    refine testBit_lor_left (testBit_lor_left (testBit_lor_left ?_))
    refine walk_testBit_start 7 ?_
    simp only [Bool.and_eq_true, decide_eq_true_eq]
    omega
  · refine ne_zero_of_testBit
      (j := ((((sq / 8 : Nat) : Int) + 1) * 8 + (((sq % 8 : Nat) : Int) - 1)).toNat) ?_
    refine testBit_lor_left (testBit_lor_left (testBit_lor_right ?_))
    refine walk_testBit_start 7 ?_
    simp only [Bool.and_eq_true, decide_eq_true_eq]
    omega
  · refine ne_zero_of_testBit
      (j := ((((sq / 8 : Nat) : Int) - 1) * 8 + (((sq % 8 : Nat) : Int) + 1)).toNat) ?_
    refine testBit_lor_left (testBit_lor_right ?_)
    refine walk_testBit_start 7 ?_
    simp only [Bool.and_eq_true, decide_eq_true_eq]
    omega
  · refine ne_zero_of_testBit
      (j := ((((sq / 8 : Nat) : Int) - 1) * 8 + (((sq % 8 : Nat) : Int) - 1)).toNat) ?_
    refine testBit_lor_right ?_
    refine walk_testBit_start 7 ?_
    simp only [Bool.and_eq_true, decide_eq_true_eq]
    omega

theorem slider_attacks_on_the_fly_ne_zero (p : Slider) (sq b : Nat)
    (h : sq < 64) : slider_attacks_on_the_fly p sq b ≠ 0 := by
  cases p
  · exact bishop_attacks_on_the_fly_ne_zero sq b h
  · exact rook_attacks_on_the_fly_ne_zero sq b h

theorem rook_occu_mask_lt (sq : Nat) (h : sq < 64) :
    rook_occu_mask sq < 2 ^ 64 := by
  refine lt_two_pow_of_high_bits_false fun j hj => ?_
  by_contra hc
  have hbt : (rook_occu_mask sq).testBit j = true := by
    revert hc
    cases (rook_occu_mask sq).testBit j <;> simp
  simp only [rook_occu_mask, Nat.testBit_lor, Bool.or_eq_true] at hbt
  rcases hbt with ((h1 | h2) | h3) | h4
  · obtain ⟨t, ht, hcnd, hje⟩ := testBit_walk _ _ _ _ h1
    simp only [decide_eq_true_eq] at hcnd
    omega
  · obtain ⟨t, ht, hcnd, hje⟩ := testBit_walk _ _ _ _ h2
    simp only [decide_eq_true_eq] at hcnd
    omega
  · obtain ⟨t, ht, hcnd, hje⟩ := testBit_walk _ _ _ _ h3
    simp only [decide_eq_true_eq] at hcnd
    omega
  · obtain ⟨t, ht, hcnd, hje⟩ := testBit_walk _ _ _ _ h4
    simp only [decide_eq_true_eq] at hcnd
    omega

theorem bishop_occu_mask_lt (sq : Nat) (h : sq < 64) :
    bishop_occu_mask sq < 2 ^ 64 := by
  refine lt_two_pow_of_high_bits_false fun j hj => ?_
  by_contra hc
  have hbt : (bishop_occu_mask sq).testBit j = true := by
    revert hc
    cases (bishop_occu_mask sq).testBit j <;> simp
  simp only [bishop_occu_mask, Nat.testBit_lor, Bool.or_eq_true] at hbt
  rcases hbt with ((h1 | h2) | h3) | h4
  · obtain ⟨t, ht, hcnd, hje⟩ := testBit_walk _ _ _ _ h1
    simp only [Bool.and_eq_true, decide_eq_true_eq] at hcnd
    omega
  · obtain ⟨t, ht, hcnd, hje⟩ := testBit_walk _ _ _ _ h2
    simp only [Bool.and_eq_true, decide_eq_true_eq] at hcnd
    omega
  · obtain ⟨t, ht, hcnd, hje⟩ := testBit_walk _ _ _ _ h3
    simp only [Bool.and_eq_true, decide_eq_true_eq] at hcnd
    omega
  · obtain ⟨t, ht, hcnd, hje⟩ := testBit_walk _ _ _ _ h4
    simp only [Bool.and_eq_true, decide_eq_true_eq] at hcnd
    omega

theorem slider_occu_mask_lt (p : Slider) (sq : Nat) (h : sq < 64) :
    slider_occu_mask p sq < 2 ^ 64 := by
  cases p
  · exact bishop_occu_mask_lt sq h
  · exact rook_occu_mask_lt sq h

theorem rook_fly_own_square (sq b : Nat) (h : sq < 64) :
    (rook_attacks_on_the_fly sq b).testBit sq = false := by
  by_contra hc
  have hbt : (rook_attacks_on_the_fly sq b).testBit sq = true := by
    revert hc
    cases (rook_attacks_on_the_fly sq b).testBit sq <;> simp
  simp only [rook_attacks_on_the_fly, Nat.testBit_lor, Bool.or_eq_true] at hbt
  rcases hbt with ((h1 | h2) | h3) | h4
  · obtain ⟨t, ht, hcnd, hje⟩ := testBit_walk _ _ _ _ h1
    simp only [decide_eq_true_eq] at hcnd
    omega
  · obtain ⟨t, ht, hcnd, hje⟩ := testBit_walk _ _ _ _ h2
    simp only [decide_eq_true_eq] at hcnd
    omega
  · obtain ⟨t, ht, hcnd, hje⟩ := testBit_walk _ _ _ _ h3
    simp only [decide_eq_true_eq] at hcnd
    omega
  · obtain ⟨t, ht, hcnd, hje⟩ := testBit_walk _ _ _ _ h4
    simp only [decide_eq_true_eq] at hcnd
    omega

theorem bishop_fly_own_square (sq b : Nat) (h : sq < 64) :
    (bishop_attacks_on_the_fly sq b).testBit sq = false := by
  by_contra hc
  have hbt : (bishop_attacks_on_the_fly sq b).testBit sq = true := by
    revert hc
    cases (bishop_attacks_on_the_fly sq b).testBit sq <;> simp
  simp only [bishop_attacks_on_the_fly, Nat.testBit_lor, Bool.or_eq_true] at hbt
  rcases hbt with ((h1 | h2) | h3) | h4
  · obtain ⟨t, ht, hcnd, hje⟩ := testBit_walk _ _ _ _ h1
    simp only [Bool.and_eq_true, decide_eq_true_eq] at hcnd
    omega
  · obtain ⟨t, ht, hcnd, hje⟩ := testBit_walk _ _ _ _ h2
    simp only [Bool.and_eq_true, decide_eq_true_eq] at hcnd
    omega
  · obtain ⟨t, ht, hcnd, hje⟩ := testBit_walk _ _ _ _ h3
    simp only [Bool.and_eq_true, decide_eq_true_eq] at hcnd
    omega
  · obtain ⟨t, ht, hcnd, hje⟩ := testBit_walk _ _ _ _ h4
    simp only [Bool.and_eq_true, decide_eq_true_eq] at hcnd
    omega

/-! ### Collision detection and table population -/

theorem test_magic_loop_agree {relv magic : Nat} {occF attF : Nat → Nat} :
    ∀ fuel idx (used : Nat → Nat),
      (∀ i, i < idx + fuel → attF i ≠ 0) →
      (∀ i, i < idx → used (magic_hashing (occF i) magic relv) = attF i) →
      test_magic_loop relv magic occF attF idx fuel used = true →
      ∀ i j, i < idx + fuel → j < idx + fuel →
        magic_hashing (occF i) magic relv = magic_hashing (occF j) magic relv →
        attF i = attF j := by
  intro fuel
  induction fuel with
  | zero =>
      intro idx used _ hinv _ i j hi hj hh
      rw [← hinv i (by omega), ← hinv j (by omega), hh]
  | succ fuel ih =>
      intro idx used hatt hinv hrun i j hi hj hh
      simp only [test_magic_loop] at hrun
      by_cases h0 : used (magic_hashing (occF idx) magic relv) = 0
      · rw [if_pos h0] at hrun
        refine ih (idx + 1)
          (Function.update used (magic_hashing (occF idx) magic relv) (attF idx))
          (fun i hi => hatt i (by omega)) ?_ hrun i j (by omega) (by omega) hh
        intro i hi
        by_cases hie : i = idx
        · subst hie
          rw [Function.update_same]
        · have hlt : i < idx := by omega
          have hne : magic_hashing (occF i) magic relv ≠
              magic_hashing (occF idx) magic relv := by
            intro he
            have := hinv i hlt
            rw [he, h0] at this
            exact hatt i (by omega) this.symm
          rw [Function.update_noteq hne]
          exact hinv i hlt
      · rw [if_neg h0] at hrun
        by_cases heq : used (magic_hashing (occF idx) magic relv) = attF idx
        · rw [if_pos heq] at hrun
          refine ih (idx + 1) used (fun i hi => hatt i (by omega)) ?_ hrun
            i j (by omega) (by omega) hh
          intro i hi
          by_cases hie : i = idx
          · subst hie
            exact heq
          · exact hinv i (by omega)
        · rw [if_neg heq] at hrun
          exact absurd hrun Bool.false_ne_true

theorem test_magic_agree {relv magic : Nat} {occF attF used0 : Nat → Nat}
    (hatt : ∀ i, i < 2 ^ relv → attF i ≠ 0)
    (h : test_magic relv magic occF attF used0 = true) :
    ∀ i j, i < 2 ^ relv → j < 2 ^ relv →
      magic_hashing (occF i) magic relv = magic_hashing (occF j) magic relv →
      attF i = attF j := by
  have h2 : (1 : Nat) <<< relv = 2 ^ relv := Nat.one_shiftLeft relv
  rw [test_magic, h2] at h
  intro i j hi hj hh
  exact test_magic_loop_agree (2 ^ relv) 0 used0
    (fun i hi => hatt i (by omega)) (fun i hi => by omega) h
    i j (by omega) (by omega) hh

theorem attack_table_loop_lookup {attack_mask obits magic : Nat}
    {fly : Nat → Nat} {d v : Nat} :
    ∀ fuel i0 tbl,
      (∀ j, i0 ≤ j → j < i0 + fuel →
        magic_hashing (set_occupancy j obits attack_mask) magic obits = d →
        fly (set_occupancy j obits attack_mask) = v) →
      (tbl d = v ∨ ∃ j, i0 ≤ j ∧ j < i0 + fuel ∧
        magic_hashing (set_occupancy j obits attack_mask) magic obits = d) →
      attack_table_loop attack_mask obits magic fly i0 fuel tbl d = v := by
  intro fuel
  induction fuel with
  | zero =>
      intro i0 tbl _ hsrc
      rcases hsrc with hsrc | ⟨j, hj1, hj2, _⟩
      · exact hsrc
      · omega
  | succ fuel ih =>
      intro i0 tbl hagree hsrc
      simp only [attack_table_loop]
      by_cases hd : magic_hashing (set_occupancy i0 obits attack_mask) magic
          obits = d
      · refine ih (i0 + 1) _ (fun j hj1 hj2 => hagree j (by omega) (by omega)) ?_
        left
        rw [← hd, Function.update_same]
        exact hagree i0 (Nat.le_refl _) (by omega) hd
      · refine ih (i0 + 1) _ (fun j hj1 hj2 => hagree j (by omega) (by omega)) ?_
        rcases hsrc with hsrc | ⟨j, hj1, hj2, hjd⟩
        · left
          rw [Function.update_noteq (fun he => hd he.symm)]
          exact hsrc
        · by_cases hji : j = i0
          · subst hji
            exact absurd hjd hd
          · right
            exact ⟨j, by omega, by omega, hjd⟩

theorem magic_table_lookup_correct (p : Slider) (sq magic : Nat)
    (hsq : sq < 64) (hw : magic_works p sq magic = true) (occu : Nat)
    (ho : occu &&& slider_occu_mask p sq = occu) :
    attack_table_loop (slider_occu_mask p sq)
      (count_bits (slider_occu_mask p sq)) magic
      (slider_attacks_on_the_fly p sq) 0
      (1 <<< count_bits (slider_occu_mask p sq)) (fun _ => 0)
      (magic_hashing occu magic (count_bits (slider_occu_mask p sq))) =
    slider_attacks_on_the_fly p sq occu := by
  have hm : slider_occu_mask p sq < 2 ^ 64 := slider_occu_mask_lt p sq hsq
  have hw' : test_magic (count_bits (slider_occu_mask p sq)) magic
      (occupancy_at (slider_occu_mask p sq) (count_bits (slider_occu_mask p sq)))
      (attack_at p sq (slider_occu_mask p sq)
        (count_bits (slider_occu_mask p sq)))
      (fun _ => 0) = true := hw
  have hagree := test_magic_agree
    (fun i _ => slider_attacks_on_the_fly_ne_zero p sq _ hsq) hw'
  obtain ⟨i0, hi0, hocc⟩ := set_occupancy_surj hm rfl ho
  rw [Nat.one_shiftLeft]
  refine attack_table_loop_lookup (2 ^ count_bits (slider_occu_mask p sq))
    0 _ ?_ ?_
  · intro j hj1 hj2 hjd
    have hjd' : magic_hashing
        (occupancy_at (slider_occu_mask p sq)
          (count_bits (slider_occu_mask p sq)) j) magic
        (count_bits (slider_occu_mask p sq)) =
        magic_hashing
        (occupancy_at (slider_occu_mask p sq)
          (count_bits (slider_occu_mask p sq)) i0) magic
        (count_bits (slider_occu_mask p sq)) := by
      show magic_hashing (set_occupancy j _ _) _ _ =
        magic_hashing (set_occupancy i0 _ _) _ _
      rw [hocc, hjd]
    have hatt := hagree j i0 (by omega) hi0 hjd'
    show slider_attacks_on_the_fly p sq (set_occupancy j _ _) = _
    calc slider_attacks_on_the_fly p sq
          (set_occupancy j (count_bits (slider_occu_mask p sq))
            (slider_occu_mask p sq))
        = slider_attacks_on_the_fly p sq
          (set_occupancy i0 (count_bits (slider_occu_mask p sq))
            (slider_occu_mask p sq)) := hatt
      _ = slider_attacks_on_the_fly p sq occu := by rw [hocc]
  · right
    refine ⟨i0, by omega, by omega, ?_⟩
    show magic_hashing (set_occupancy i0 _ _) _ _ = _
    rw [hocc]

/-- Claim C1: for every sliding piece p in (rook, bishop), every square
s, and (given a magic number for (p, s) that the engine's own
`test_magic` check accepts, which is exactly what `find_magic_number`
guarantees on success) every occupancy o that is a subset of the
relevant-occupancy mask of (p, s), the magic-indexed attack-table
lookup equals the reference ray-walk generator: `get_bishop_attacks`
agrees with `bishop_attacks_on_the_fly`, and the rook table built by
`init_rook_attacks` satisfies
`Rattacks[s][(o * magic) >> (64 - k)] = rook_attacks_on_the_fly(s, o)`. -/
theorem c1_magic_lookup_eq_ray_walk (p : Slider) (sq magic : Nat)
    (hsq : sq < 64) (hw : magic_works p sq magic = true) (occu : Nat)
    (ho : occu &&& slider_occu_mask p sq = occu) :
    magic_attacks p magic sq occu = slider_attacks_on_the_fly p sq occu := by
  cases p
  case bishop =>
    have ho' : occu &&& bishop_occu_mask sq = occu := ho
    show init_bishop_attacks magic sq
      (magic_hashing (occu &&& bishop_occu_mask sq) magic
        (count_bits (bishop_occu_mask sq))) = _
    rw [ho']
    exact magic_table_lookup_correct Slider.bishop sq magic hsq hw occu ho
  case rook =>
    exact magic_table_lookup_correct Slider.rook sq magic hsq hw occu ho

theorem c1_magic_lookup_eq_ray_walk_witness :
    (0 : Nat) < 64 ∧
    magic_works Slider.bishop 0 0x40040844404084 = true ∧
    ((1 <<< 9 : Nat) &&& slider_occu_mask Slider.bishop 0 = 1 <<< 9) ∧
    magic_attacks Slider.bishop 0x40040844404084 0 (1 <<< 9) =
      slider_attacks_on_the_fly Slider.bishop 0 (1 <<< 9) :=
  ⟨by decide, by decide, by decide,
    c1_magic_lookup_eq_ray_walk Slider.bishop 0 0x40040844404084 (by decide)
      (by decide) (1 <<< 9) (by decide)⟩

/-- Claim C2: if `find_magic_number` returns a nonzero magic c — which
happens exactly when the engine's `test_magic` check accepts c over the
occupancy/attack arrays built by `init_occupancy_indicies`, from
whatever state the `used_attacks` scratch array is in — then any two
indices i, j below 2^relv_bits whose enumerated occupancy subsets hash
to the same magic index have equal reference ray-walk attack sets. -/
theorem c2_accepted_magic_collision_free (p : Slider) (sq : Nat)
    (hsq : sq < 64) (attack_mask relv_bits magic : Nat) (used0 : Nat → Nat)
    (hrun : test_magic relv_bits magic (occupancy_at attack_mask relv_bits)
      (attack_at p sq attack_mask relv_bits) used0 = true) :
    ∀ i j, i < 2 ^ relv_bits → j < 2 ^ relv_bits →
      magic_hashing (occupancy_at attack_mask relv_bits i) magic relv_bits =
        magic_hashing (occupancy_at attack_mask relv_bits j) magic relv_bits →
      attack_at p sq attack_mask relv_bits i =
        attack_at p sq attack_mask relv_bits j :=
  test_magic_agree (fun i _ => slider_attacks_on_the_fly_ne_zero p sq _ hsq)
    hrun

theorem c2_accepted_magic_collision_free_witness :
    (0 : Nat) < 64 ∧
    test_magic (count_bits (bishop_occu_mask 0)) 0x40040844404084
      (occupancy_at (bishop_occu_mask 0) (count_bits (bishop_occu_mask 0)))
      (attack_at Slider.bishop 0 (bishop_occu_mask 0)
        (count_bits (bishop_occu_mask 0))) (fun _ => 0) = true ∧
    (3 : Nat) < 2 ^ count_bits (bishop_occu_mask 0) ∧
    (5 : Nat) < 2 ^ count_bits (bishop_occu_mask 0) ∧
    magic_hashing (occupancy_at (bishop_occu_mask 0)
        (count_bits (bishop_occu_mask 0)) 3) 0x40040844404084
        (count_bits (bishop_occu_mask 0)) =
      magic_hashing (occupancy_at (bishop_occu_mask 0)
        (count_bits (bishop_occu_mask 0)) 3) 0x40040844404084
        (count_bits (bishop_occu_mask 0)) ∧
    attack_at Slider.bishop 0 (bishop_occu_mask 0)
        (count_bits (bishop_occu_mask 0)) 3 =
      attack_at Slider.bishop 0 (bishop_occu_mask 0)
        (count_bits (bishop_occu_mask 0)) 3 :=
  ⟨by decide, by decide, by decide, by decide, rfl,
    c2_accepted_magic_collision_free Slider.bishop 0 (by decide)
      (bishop_occu_mask 0) (count_bits (bishop_occu_mask 0)) 0x40040844404084
      (fun _ => 0) (by decide) 3 3 (by decide) (by decide) rfl⟩

/-- Claim C3: the spec requires all N = 2^k entries of the
`used_attacks` scratch array (4096 entries of 64 bits for rook squares
with k = 12) to be reset to the empty sentinel 0 before each candidate
test, but `init_used_attacks` calls `memset(used_attacks, 0ULL, 4096)`,
whose count is bytes, so only the first 512 entries are cleared:
starting from an all-ones scratch, entry 511 is cleared to 0 while
entries 512 and 4095 keep their stale value 1.  This is the hard bug
flagged in spec §9. -/
theorem c3_init_used_attacks_clears_only_512 :
    init_used_attacks (fun _ => 1) 511 = 0 ∧
    init_used_attacks (fun _ => 1) 512 = 1 ∧
    init_used_attacks (fun _ => 1) 4095 = 1 := by
  refine ⟨rfl, rfl, rfl⟩

/-- Claim C4: the one-step shift macros are required to move every bit
one square in the compass direction under the a1 = 0 LERF mapping with
file-wrap bits masked off, but the masks `~A_FILE`/`~H_FILE` use the
`enum files` constants 0 and 7 rather than file masks: the h2 bit
(square 15, file h) shifted E reappears as the a3 bit (square 16, file
a) instead of vanishing, and `SHIFT_N` moves the a2 bit (square 8) to
a1 (square 0), i.e. one rank toward rank 1 rather than north. -/
theorem c4_shift_macros_wrap_and_misdirect :
    SHIFT_E (1 <<< 15) = 1 <<< 16 ∧ (15 : Nat) % 8 = 7 ∧
    (16 : Nat) % 8 = 0 ∧ SHIFT_N (1 <<< 8) = 1 <<< 0 := by
  refine ⟨by decide, by decide, by decide, by decide⟩

/-- Claim C5: `get_bishop_attacks` begins with `occu &= B_lut[sq].mask`,
so occupancy bits outside the bishop relevant-occupancy mask never
affect the returned attack set:
`get_bishop_attacks(s, o) = get_bishop_attacks(s, o & mask[s])`. -/
theorem c5_get_bishop_attacks_ignores_bits_outside_mask
    (magic sq occu : Nat) :
    get_bishop_attacks magic sq occu =
      get_bishop_attacks magic sq (occu &&& bishop_occu_mask sq) := by
  show init_bishop_attacks magic sq
      (magic_hashing (occu &&& bishop_occu_mask sq) magic
        (count_bits (bishop_occu_mask sq))) =
    init_bishop_attacks magic sq
      (magic_hashing ((occu &&& bishop_occu_mask sq) &&& bishop_occu_mask sq)
        magic (count_bits (bishop_occu_mask sq)))
  rw [land_land_self]

/-- Claim C6: if the randomized magic search fails for some square
(modelled by a search oracle that may return 0 anywhere, 0 being
`find_magic_number`'s failure value), the loader modelled from spec
§4.9/§7 retries `init_bishop_magic`/`init_rook_magic` with the
compiled-in precomputed magic tables; as long as those vetted constants
are nonzero, initialization always completes successfully. -/
theorem c6_init_recovers_from_search_exhaustion
    (bishop_magic_numbers rook_magic_numbers : Nat → Nat)
    (hB : ∀ sq, sq < 64 → bishop_magic_numbers sq ≠ 0)
    (hR : ∀ sq, sq < 64 → rook_magic_numbers sq ≠ 0) :
    ∀ find_magicB find_magicR,
      init_magic_numbers bishop_magic_numbers rook_magic_numbers
        find_magicB find_magicR = true := by
  intro find_magicB find_magicR
  have hBtrue : init_bishop_magic true bishop_magic_numbers find_magicB
      = true := by
    simp only [init_bishop_magic, List.all_eq_true, List.mem_range,
      if_true, decide_eq_true_eq]
    intro sq hsq
    exact hB sq hsq
  have hRtrue : init_rook_magic true rook_magic_numbers find_magicR
      = true := by
    simp only [init_rook_magic, List.all_eq_true, List.mem_range,
      if_true, decide_eq_true_eq]
    intro sq hsq
    exact hR sq hsq
  rw [init_magic_numbers]
  by_cases hbf : init_bishop_magic false bishop_magic_numbers find_magicB
      = true
  · by_cases hrf : init_rook_magic false rook_magic_numbers find_magicR = true
    · rw [if_pos hbf, if_pos hrf]
      rfl
    · rw [if_pos hbf, if_neg hrf, hRtrue]
      rfl
  · by_cases hrf : init_rook_magic false rook_magic_numbers find_magicR = true
    · rw [if_neg hbf, if_pos hrf, hBtrue]
      rfl
    · rw [if_neg hbf, if_neg hrf, hBtrue, hRtrue]
      rfl

theorem c6_init_recovers_from_search_exhaustion_witness :
    (∀ sq, sq < 64 → (fun _ : Nat => (1 : Nat)) sq ≠ 0) ∧
    init_magic_numbers (fun _ => 1) (fun _ => 1) (fun _ => 0) (fun _ => 0)
      = true :=
  ⟨fun _ _ => one_ne_zero,
    c6_init_recovers_from_search_exhaustion (fun _ => 1) (fun _ => 1)
      (fun _ _ => one_ne_zero) (fun _ _ => one_ne_zero)
      (fun _ => 0) (fun _ => 0)⟩

/-- Claim C7: the single-bit round-trip `get_ls1b(1 << s) = s` and
`count_bits(1 << s) = 1` holds for the CTZ, POPCOUNT and de Bruijn
branches of `get_ls1b`, but not identically across every configured
branch: the `__builtin_ffsll`/`ffsll` branches return s + 1 (ISO C ffs
is one-based), witnessed at the failing input s = 0 (and s = 5). -/
theorem c7_ls1b_branches_disagree_on_single_bit :
    get_ls1b (1 <<< 0) = 0 ∧ get_ls1b_popcount (1 <<< 0) = 0 ∧
    get_ls1b_debruijn (1 <<< 0) = 0 ∧ count_bits (1 <<< 0) = 1 ∧
    get_ls1b_ffsll (1 <<< 0) = 1 ∧
    get_ls1b (1 <<< 5) = 5 ∧ get_ls1b_popcount (1 <<< 5) = 5 ∧
    get_ls1b_debruijn (1 <<< 5) = 5 ∧ count_bits (1 <<< 5) = 1 ∧
    get_ls1b_ffsll (1 <<< 5) = 6 := by
  refine ⟨by decide, by decide, by decide, by decide, by decide,
    by decide, by decide, by decide, by decide, by decide⟩

/-- Claim C8: `get_queen_attacks` from queen.c returns the bitwise OR of
the rook attack set and the bishop attack set for the same square and
occupancy (with `get_rook_attacks` modelled from spec §4.8, the function
being absent from src/). -/
theorem c8_queen_eq_rook_or_bishop (magicB magicR sq occu : Nat) :
    get_queen_attacks magicB magicR sq occu =
      get_rook_attacks magicR sq occu ||| get_bishop_attacks magicB sq occu :=
  Nat.lor_comm _ _

/-- Claim C9: for every square s and every blockers bitboard b, bit s is
clear in both `rook_attacks_on_the_fly s b` and
`bishop_attacks_on_the_fly s b`: the on-the-fly slider attack set never
contains the piece's own square, whether or not bit s is set in b. -/
theorem c9_on_the_fly_never_contains_own_square (sq b : Nat)
    (hsq : sq < 64) :
    (rook_attacks_on_the_fly sq b).testBit sq = false ∧
    (bishop_attacks_on_the_fly sq b).testBit sq = false :=
  ⟨rook_fly_own_square sq b hsq, bishop_fly_own_square sq b hsq⟩

theorem c9_on_the_fly_never_contains_own_square_witness :
    (27 : Nat) < 64 ∧
    (rook_attacks_on_the_fly 27 (1 <<< 27)).testBit 27 = false ∧
    (bishop_attacks_on_the_fly 27 (1 <<< 27)).testBit 27 = false :=
  ⟨by decide,
    (c9_on_the_fly_never_contains_own_square 27 (1 <<< 27) (by decide)).1,
    (c9_on_the_fly_never_contains_own_square 27 (1 <<< 27) (by decide)).2⟩

/-- Claim C10: for every 64-bit mask m, every bit count k with
k ≤ count_bits m, and every index i < 2^k, `set_occupancy i k m` returns
a subset of m: `set_occupancy(i, k, m) & ~m = 0`, where on `uint64_t`
the complement `~m` is `MASK64 ^^^ m`. -/
theorem c10_set_occupancy_subset_of_mask (index k mask : Nat)
    (hm : mask < 2 ^ 64) (hi : index < 2 ^ k)
    (hk : k ≤ count_bits mask) :
    set_occupancy index k mask &&& (MASK64 ^^^ mask) = 0 := by
  refine Nat.eq_of_testBit_eq fun j => ?_
  rw [Nat.zero_testBit, Nat.testBit_land]
  by_cases hbt : (set_occupancy index k mask).testBit j = true
  · have hj := set_occupancy_loop_subset k 0 index mask 0 hm hk j hbt
    rcases hj with hj | hj
    · rw [Nat.zero_testBit] at hj
      exact absurd hj Bool.false_ne_true
    · have hj64 : j < 64 := by
        by_contra hge
        rw [testBit_false_of_lt_two_pow hm (by omega)] at hj
        exact Bool.false_ne_true hj
      rw [hbt, Nat.testBit_xor,
        show MASK64 = 2 ^ 64 - 1 from rfl, Nat.testBit_two_pow_sub_one, hj]
      simp [hj64]
  · have hbf : (set_occupancy index k mask).testBit j = false := by
      revert hbt
      cases (set_occupancy index k mask).testBit j <;> simp
    rw [hbf]
    rfl

theorem c10_set_occupancy_subset_of_mask_witness :
    (10 : Nat) < 2 ^ 64 ∧ (3 : Nat) < 2 ^ 2 ∧
    (2 : Nat) ≤ count_bits 10 ∧
    set_occupancy 3 2 10 &&& (MASK64 ^^^ 10) = 0 :=
  ⟨by decide, by decide, by decide,
    c10_set_occupancy_subset_of_mask 3 2 10 (by decide) (by decide)
      (by decide)⟩

end Tezdhar
